import Mathlib

/-!
Verification development for the dynofuzz rule-inference and graph-generation
core.  The definitions below shallowly embed the Python sources:

* `autoinf/inference/symbl_int_solve.py` (output-shape rule synthesis),
* `autoinf/inference/strict_input_solve.py` (input-constraint rule synthesis
  and its pruning rule database),
* `autoinf/inference/nnsmith_rules.py` (dialect-rule matching),
* `autoinf/inference/api_parsing.py` (invocation DB analysis and the mutator),
* `dynofuzz/graph_gen.py` (graph generation loop and insertion paths).

Machine integers are modelled as `Int`, records as lists of integers.  The
arithmetic expression trees (`tree.py` is not part of the provided sources)
are modelled from the spec: leaves are the literals 1/2 or argument slots,
internal nodes are binary `+ - * /` operators.  The SMT equivalence oracle is
modelled as an explicit parameter (a Boolean function on rule lists), and its
intended semantics (`f ↔ g` is a tautology) as the proposition `ConjEquiv`.
-/

namespace Dynofuzz

/-- Modelled from the spec: binary operators of the expression-tree grammar
(`tree.py` is not among the provided sources).  Division is integer division. -/
inductive ArithOp
| add
| sub
| mul
| div
deriving DecidableEq

def ArithOp.apply : ArithOp → Int → Int → Int
| .add, a, b => a + b
| .sub, a, b => a - b
| .mul, a, b => a * b
| .div, a, b => a / b

/-- Modelled from the spec: an arithmetic expression tree whose leaves are
literals or local argument slots `s0 … s_{k-1}`. -/
inductive ArithExpTree
| lit (n : Int)
| arg (i : Nat)
| node (op : ArithOp) (l r : ArithExpTree)
deriving DecidableEq

/-- Modelled from the spec: trees are evaluated on integer-indexed vectors. -/
def ArithExpTree.evaluate : ArithExpTree → List Int → Int
| .lit n, _ => n
| .arg i, val => val.getD i 0
| .node op l r, val => op.apply (l.evaluate val) (r.evaluate val)

/-- All argument slots mentioned by the tree lie below `n` (in the source,
trees handed to a size-`p` symbol subset only use slots `s0 … s_{p-1}`). -/
def ArithExpTree.argsBelow : ArithExpTree → Nat → Bool
| .lit _, _ => true
| .arg i, n => decide (i < n)
| .node _ l r, n => l.argsBelow n && r.argsBelow n

/-- The value vector a chosen symbol subset extracts from a record's inputs
(`val.append(record_list[record_id][0][argNum])` in `symbl_int_solve.solve_inst`,
and the same pattern in `strict_input_solve.inspect_all_records`). -/
def subsetVals (inputs : List Int) (sym_list : List Nat) : List Int :=
  sym_list.map (fun argNum => inputs.getD argNum 0)

namespace SymblIntSolve

/-- A record is skipped by the validity scan of `symbl_int_solve.solve_inst`
when its output tuple is too short for `o_id` (`if o_id >= len(...): continue`)
or, with the zero-filter enabled, when some chosen input value is `≤ 0`. -/
def recordSkipped (zerofilter : Bool) (o_id : Nat) (sym_list : List Nat)
    (record : List Int × List Int) : Bool :=
  decide (record.2.length ≤ o_id)
  || (zerofilter && (subsetVals record.1 sym_list).any (fun v => decide (v ≤ 0)))

/-- The per-record exactness test of `symbl_int_solve.solve_inst`:
`tree.evaluate(val) != expectedVal` sets `valid = False`. -/
def recordMatches (tree : ArithExpTree) (sym_list : List Nat) (o_id : Nat)
    (record : List Int × List Int) : Bool :=
  decide (tree.evaluate (subsetVals record.1 sym_list) = record.2.getD o_id 0)

/-- Admission test of `symbl_int_solve.solve_inst` (lines 144-163): a
`(tree, sym_set)` pair is appended to `valid_tree_set[o_id]` iff every
non-skipped record matches exactly and at least one record was not skipped. -/
def validTreeFor (zerofilter : Bool) (record_list : List (List Int × List Int))
    (tree : ArithExpTree) (sym_list : List Nat) (o_id : Nat) : Bool :=
  record_list.all (fun r =>
    recordSkipped zerofilter o_id sym_list r || recordMatches tree sym_list o_id r)
  && record_list.any (fun r => !recordSkipped zerofilter o_id sym_list r)

/-- The rank-passthrough fallback (lines 170-181): `o_id` gets the constant
rule `input_len` iff every record with a `o_id`-th output records exactly
`input_len` there. -/
def rankFallbackOk (record_list : List (List Int × List Int)) (o_id : Nat)
    (input_len : Nat) : Bool :=
  record_list.all (fun r =>
    decide (r.2.length ≤ o_id) || decide (r.2.getD o_id 0 = (input_len : Int)))

end SymblIntSolve

namespace StrictInputSolve

/-- The three relations of `strict_input_solve` rules (`==`, `>`, `>=`). -/
inductive CmpSign
| eq
| gt
| ge
deriving DecidableEq

/-- `eval(f"tree.evaluate(val) {sign} 0")` in `inspect_all_records`. -/
def CmpSign.holds : CmpSign → Int → Bool
| .eq, v => decide (v = 0)
| .gt, v => decide (0 < v)
| .ge, v => decide (0 ≤ v)

/-- An arithmetic expression over the operator's global input symbols
`s0, s1, …` — the form in which rules are stored after `remap`. -/
inductive SymExpr
| lit (n : Int)
| sym (i : Nat)
| node (op : ArithOp) (l r : SymExpr)
deriving DecidableEq

def SymExpr.evalWith (sigma : Nat → Int) : SymExpr → Int
| .lit n => n
| .sym i => sigma i
| .node op l r => op.apply (l.evalWith sigma) (r.evalWith sigma)

/-- `remap(tree.display(), sym_list)`: rename the tree's local slots `s_i`
to the chosen global symbols `sym_list[i]`. -/
def remapTree (sym_list : List Nat) : ArithExpTree → SymExpr
| .lit n => .lit n
| .arg i => .sym (sym_list.getD i 0)
| .node op l r => .node op (remapTree sym_list l) (remapTree sym_list r)

/-- The assignment a record's flat input tuple induces on the global symbols. -/
def sigmaOf (inputs : List Int) : Nat → Int := fun i => inputs.getD i 0

/-- A stored input-constraint rule: expression and relation against `0`. -/
abbrev InRule := SymExpr × CmpSign

def ruleHolds (rule : InRule) (sigma : Nat → Int) : Bool :=
  rule.2.holds (rule.1.evalWith sigma)

/-- Truth of the conjunction of a rule set under one assignment (the z3
conjunction built in `RuleDatabase.Add`). -/
def satAll (ruleset : List InRule) (sigma : Nat → Int) : Bool :=
  ruleset.all (fun rule => ruleHolds rule sigma)

/-- Modelled from the spec: the SMT adapter's `equivalent(f, g)` is true iff
`f ↔ g` is a tautology over integer assignments to the symbols. -/
def ConjEquiv (E F : List InRule) : Prop :=
  ∀ sigma : Nat → Int, satAll E sigma = satAll F sigma

/-- `strict_input_solve.inspect_all_records` (lines 115-134): every success
record must satisfy `tree rel 0`; for `=` that suffices; for `>`/`>=` some
failing record must violate it. -/
def inspect_all_records (valid_list invalid_list : List (List Int))
    (sym_list : List Nat) (tree : ArithExpTree) (sign : CmpSign) : Bool :=
  if valid_list.all (fun inputs => sign.holds (tree.evaluate (subsetVals inputs sym_list)))
  then
    if sign = CmpSign.eq then true
    else invalid_list.any (fun inputs =>
      !sign.holds (tree.evaluate (subsetVals inputs sym_list)))
  else false

/-- The type of the equivalence oracle `RuleDatabase.Add` queries (the z3
`equivalent` call on the two candidate conjunctions). -/
abbrev eqvOracle := List InRule → List InRule → Bool

/-- One scan of `RuleDatabase.Add`'s inner `for i in range(len(ruleset)-1, 0, -1)`:
find the largest index in `[1, n]` whose removal the oracle reports as
equivalence-preserving. -/
def findPrunableAux (eqv : List InRule → List InRule → Bool)
    (ruleset : List InRule) : Nat → Option Nat
| 0 => none
| n + 1 =>
  if eqv ruleset (ruleset.eraseIdx (n + 1)) then some (n + 1)
  else findPrunableAux eqv ruleset n

def findPrunable (eqv : List InRule → List InRule → Bool)
    (ruleset : List InRule) : Option Nat :=
  findPrunableAux eqv ruleset (ruleset.length - 1)

/-- The `while prunable` loop of `RuleDatabase.Add`: repeatedly delete a rule
whose removal the oracle reports as equivalence-preserving.  Each pass removes
one rule, so `fuel ≥ length` reaches the fixpoint. -/
def pruneLoop (eqv : List InRule → List InRule → Bool) :
    Nat → List InRule → List InRule
| 0, ruleset => ruleset
| fuel + 1, ruleset =>
  match findPrunable eqv ruleset with
  | none => ruleset
  | some i => pruneLoop eqv fuel (ruleset.eraseIdx i)

/-- `strict_input_solve.RuleDatabase.Add`: refuse past 50 rules, otherwise
append and run minimality pruning. -/
def addRule (eqv : List InRule → List InRule → Bool)
    (ruleset : List InRule) (rule : InRule) : List InRule :=
  if 50 < ruleset.length then ruleset
  else pruneLoop eqv (ruleset.length + 1) (ruleset ++ [rule])

/-- The constant-constraint pass of `strict_input_solve.solve_inst`
(lines 152-160): for each position whose value is identical across all
success records, add `s_i - v == 0`. -/
def constRuleAdds (eqv : List InRule → List InRule → Bool)
    (valid_list : List (List Int)) (input_len : Nat)
    (ruleset : List InRule) : List InRule :=
  (List.range input_len).foldl (fun rs i =>
    if valid_list.all (fun inputs =>
        decide (inputs.getD i 0 = (valid_list.headD []).getD i 0))
    then addRule eqv rs
      (SymExpr.node .sub (.sym i) (.lit ((valid_list.headD []).getD i 0)), CmpSign.eq)
    else rs) ruleset

/-- The enumeration pass of `strict_input_solve.solve_inst` (lines 161-179),
abstracted over the candidate stream (any enumeration order, any prefix cut
by the wall-clock budget): each candidate passing `inspect_all_records` is
remapped and added. -/
def candidateAdds (eqv : List InRule → List InRule → Bool)
    (valid_list invalid_list : List (List Int))
    (cands : List (ArithExpTree × List Nat × CmpSign))
    (ruleset : List InRule) : List InRule :=
  cands.foldl (fun rs c =>
    if inspect_all_records valid_list invalid_list c.2.1 c.1 c.2.2
    then addRule eqv rs (remapTree c.2.1 c.1, c.2.2)
    else rs) ruleset

/-- The full admitted rule set of `strict_input_solve.solve_inst`: constant
rules first, then enumeration candidates. -/
def solveInstRules (eqv : List InRule → List InRule → Bool)
    (valid_list invalid_list : List (List Int))
    (cands : List (ArithExpTree × List Nat × CmpSign)) : List InRule :=
  candidateAdds eqv valid_list invalid_list cands
    (constRuleAdds eqv valid_list (valid_list.headD []).length [])

/-- The negative-sample list actually consumed by `strict_input_solve.solve_inst`
(lines 139-143): every fail input, unfiltered. -/
def invalidListOf (fail_list : List (List Int)) : List (List Int) :=
  fail_list.map (fun inputs => inputs)

/-- Soundness property of one admitted rule, as claimed: holds on every
success record and, when strict, violated by at least one failing record. -/
def soundRule (valid_list invalid_list : List (List Int)) (rule : InRule) : Prop :=
  (∀ inputs ∈ valid_list, ruleHolds rule (sigmaOf inputs) = true)
  ∧ (rule.2 ≠ CmpSign.eq →
      ∃ inputs ∈ invalid_list, ruleHolds rule (sigmaOf inputs) = false)

/-- An equivalence oracle that never reports equivalence (sound whenever the
queried pair is in fact inequivalent, as in the runs below). -/
def eqvNever : List InRule → List InRule → Bool := fun _ _ => false

/-- An equivalence oracle that always reports equivalence (complete: it
returns `true` on every truly equivalent pair). -/
def eqvAlways : List InRule → List InRule → Bool := fun _ _ => true

/-- The rule `s0 - 1 >= 0`. -/
def rGe1 : InRule := (SymExpr.node .sub (.sym 0) (.lit 1), CmpSign.ge)

/-- The rule `s0 - 1 > 0`. -/
def rGt1 : InRule := (SymExpr.node .sub (.sym 0) (.lit 1), CmpSign.gt)

/-- The rule `s0 = 0`. -/
def rEq0 : InRule := (SymExpr.sym 0, CmpSign.eq)

/-- The rule `s0 >= 0`. -/
def rGe0 : InRule := (SymExpr.sym 0, CmpSign.ge)

/-- A complete oracle that answers `false` exactly on the (inequivalent)
query `[s0 >= 0, s0 = 0]` vs `[s0 >= 0]` and `true` elsewhere. -/
def eqvW (E F : List InRule) : Bool :=
  !(E == [rGe0, rEq0] && F == [rGe0])

end StrictInputSolve

namespace NNSmithRules

/-- The fail-input filter of `nnsmith_rules.solve_inst` (lines 52-56): keep
only fail inputs whose values are all non-negative. -/
def nonNegativeFails (fail_list : List (List Int)) : List (List Int) :=
  fail_list.filter (fun inputs => inputs.all (fun x => decide (0 ≤ x)))

/-- Result of a dialect rule's `type_transfer` (the registry is out of scope
of the sources; modelled from the spec as a sum of success and the caught
`IndexError`/`ConstraintError`/`InternalError` outcomes). -/
inductive TypeTransferRes
| ok (outs : List (List Int))
| err
deriving DecidableEq

/-- Result of a dialect rule's `requires`: a list of predicate truth values,
or a caught error. -/
inductive RequiresRes
| ok (preds : List Bool)
| err

/-- Modelled from the spec: an opaque dialect rule class of the registry.
`extraOk` models the additional `BcastBinaryOp` oracle probe of
`nnsmith_rules.solve_inst` (lines 126-147); it is constantly `true` for
every other class. -/
structure DialectRuleClass where
  nIn : Nat
  nOut : Nat
  transfer : List (List Int) → TypeTransferRes
  requiresOn : List (List Int) → RequiresRes
  extraOk : List (List Int × List Int) → Bool

/-- An operator instance's tensor layout: for each input (resp. output)
tensor, its shape as a list of flat input- (resp. output-) symbol indices. -/
structure OpInst where
  inputTensors : List (List Nat)
  outputTensors : List (List Nat)

/-- `abs_to_concrete`: substitute a record's flat value tuple into the
symbolic tensor shapes. -/
def concretize (tensors : List (List Nat)) (vals : List Int) : List (List Int) :=
  tensors.map (fun shape => shape.map (fun s => vals.getD s 0))

/-- The per-success-record acceptance check of `nnsmith_rules.solve_inst`
(lines 73-125): `type_transfer` must succeed and reproduce the recorded
output shapes, and every `requires` predicate must be true. -/
def classAcceptsRecord (cls : DialectRuleClass) (inst : OpInst)
    (record : List Int × List Int) : Bool :=
  match cls.transfer (concretize inst.inputTensors record.1) with
  | .err => false
  | .ok outs =>
    decide (outs = concretize inst.outputTensors record.2)
    && (match cls.requiresOn (concretize inst.inputTensors record.1) with
        | .err => false
        | .ok preds => preds.all (fun b => b))

/-- The per-fail-record rejection check of `nnsmith_rules.solve_inst`
(lines 149-178): `requires` raises, or some predicate is false. -/
def classRejectsFail (cls : DialectRuleClass) (inst : OpInst)
    (inputs : List Int) : Bool :=
  match cls.requiresOn (concretize inst.inputTensors inputs) with
  | .err => true
  | .ok preds => preds.any (fun b => !b)

/-- Whole-class match check of `nnsmith_rules.solve_inst`: arities agree,
every success record is accepted, the class-specific extra probe passes, and
every all-non-negative fail input is rejected. -/
def classMatches (cls : DialectRuleClass) (inst : OpInst)
    (success : List (List Int × List Int)) (fail_list : List (List Int)) : Bool :=
  decide (cls.nIn = inst.inputTensors.length)
  && decide (cls.nOut = inst.outputTensors.length)
  && success.all (fun r => classAcceptsRecord cls inst r)
  && cls.extraOk success
  && (nonNegativeFails fail_list).all (fun inputs => classRejectsFail cls inst inputs)

/-- The registry scan of `nnsmith_rules.solve_inst` (lines 61-181): classes
are visited in registry order and the loop `break`s right after the first
match is appended to `res`. -/
def matchDialectAux (inst : OpInst) (success : List (List Int × List Int))
    (fail_list : List (List Int)) : Nat → List DialectRuleClass → List Nat
| _, [] => []
| i, cls :: rest =>
  if classMatches cls inst success fail_list then [i]
  else matchDialectAux inst success fail_list (i + 1) rest

/-- The matcher's output `res`. -/
def solveInstMatches (registry : List DialectRuleClass) (inst : OpInst)
    (success : List (List Int × List Int)) (fail_list : List (List Int)) : List Nat :=
  matchDialectAux inst success fail_list 0 registry

/-- A trivially matching one-input one-output class: `type_transfer` is the
identity on shapes and `requires` returns no predicates. -/
def idClass : DialectRuleClass :=
  DialectRuleClass.mk 1 1 (fun shapes => TypeTransferRes.ok shapes)
    (fun _ => RequiresRes.ok []) (fun _ => true)

/-- A unary operator instance whose single input and output tensors are both
the one-dimensional shape `[s0]` resp. `[o0]`. -/
def unaryInst : OpInst := OpInst.mk [[0]] [[0]]

end NNSmithRules

namespace ApiParsing

/-- The alias analysis of `api_parsing.OpDatabase.analyze_symbol`
(lines 85-93): `(i, j)` with `i < j` joins `aliases` iff positions `i` and
`j` carry equal values in every success record. -/
def analyzeAliases (record_list : List (List Int × List Int)) : List (Nat × Nat) :=
  let input_len := (record_list.headD ([], [])).1.length
  (List.range input_len).flatMap (fun i =>
    ((List.range input_len).filter (fun j => decide (i < j))).filterMap (fun j =>
      if record_list.all (fun r => decide (r.1.getD i 0 = r.1.getD j 0))
      then some (i, j) else none))

/-- The two-symbol step of `api_parsing.mutate` (lines 183-194) for one pair
`(i, j)`: the assignments passed to `input_validity_test`, in order.  When
the two original values are equal, `s_j` is first incremented and that
already-perturbed assignment is then swapped; otherwise only the swap of the
original assignment is probed. -/
def pairProbeTrace (xs : List Int) (i j : Nat) : List (List Int) :=
  let xs1 := if xs.getD i 0 = xs.getD j 0 then xs.set j (xs.getD j 0 + 1) else xs
  let probes1 := if xs.getD i 0 = xs.getD j 0 then [xs1] else []
  let xs2 := (xs1.set i (xs1.getD j 0)).set j (xs1.getD i 0)
  probes1 ++ [xs2]

end ApiParsing

namespace GraphGen

/-- Instruction kinds of the Graph IR (modelled from the spec; `gir.py` is
not among the provided sources): free placeholders, placeholders promoted to
graph inputs or constants at finalisation, and compute instructions. -/
inductive GInstKind
| ph
| inputPh
| constPh
| compute
deriving DecidableEq

/-- One IR instruction together with the abstract tensors it creates. -/
structure GInst where
  kind : GInstKind
  outs : List (List Int)
deriving DecidableEq

/-- `BaseGen.num_op` / `GraphIR.n_compute_inst`: placeholders are excluded. -/
def numOp (ir : List GInst) : Nat :=
  (ir.filter (fun inst => inst.kind == GInstKind.compute)).length

/-- The generation loop of `BaseGen.abstract_gen` (lines 181-187): while the
compute-instruction count is below `max_node_size`, run the next insertion
attempt (each attempt appends the instructions of a successful `try_insert`,
or nothing on failure); the attempt list ending models the wall-clock budget
running out. -/
def abstractGenLoop (max_node_size : Nat) :
    List GInst → List (List GInst) → List GInst
| ir, [] => ir
| ir, attempt :: rest =>
  if numOp ir < max_node_size then abstractGenLoop max_node_size (ir ++ attempt) rest
  else ir

/-- Placeholder finalisation of `BaseGen.abstract_gen` (lines 192-203): the
first placeholder becomes a graph input, later ones become inputs or
constants following the random draws in `choices`. -/
def promotePlaceholders : Bool → List Bool → List GInst → List GInst
| _, _, [] => []
| isFirst, choices, inst :: rest =>
  if inst.kind == GInstKind.ph then
    if isFirst then
      GInst.mk GInstKind.inputPh inst.outs :: promotePlaceholders false choices rest
    else
      match choices with
      | [] => GInst.mk GInstKind.inputPh inst.outs :: promotePlaceholders false [] rest
      | c :: cs =>
        GInst.mk (if c then GInstKind.inputPh else GInstKind.constPh) inst.outs
          :: promotePlaceholders false cs rest
  else inst :: promotePlaceholders isFirst choices rest

/-- A full generator run: the constructor inserts one initial placeholder,
`abstract_gen` loops, then placeholders are promoted. -/
def modelGenRun (max_node_size : Nat) (attempts : List (List GInst))
    (choices : List Bool) (init_shape : List Int) : List GInst :=
  promotePlaceholders true choices
    (abstractGenLoop max_node_size [GInst.mk GInstKind.ph [init_shape]] attempts)

/-- `AbsTensor.nelement()`: the product of the shape entries. -/
def nelement (shape : List Int) : Int := shape.foldl (fun a b => a * b) 1

/-- The default `max_elem_per_tensor = 2**16` of `BaseGen.__init__`. -/
def max_elem_per_tensor : Int := 2 ^ 16

/-- `BaseGen.tensor_type_constraints` (lines 80-83), evaluated on a concrete
tensor as in `ConcolicGen`'s shape checker: `nelement() <= max_elem_per_tensor`. -/
def tensor_type_constraints_ok (shape : List Int) : Bool :=
  decide (nelement shape ≤ max_elem_per_tensor)

/-- The concrete output-shape check of `ConcolicGen.try_forward_insert_at`
(lines 652-656): every output tensor must satisfy the type constraints. -/
def concolicOutputCheck (otensors : List (List Int)) : Bool :=
  otensors.all (fun ten => tensor_type_constraints_ok ten)

/-- `DynoFuzzR.try_concrete_forward_insert_op` (lines 801-815): if every
record input tensor type has a live variable in the graph, the instruction is
appended verbatim — no size-cap constraint or check is evaluated on the
record's tensors. -/
def tryConcreteForwardInsertOp (type2vars : List (List Int × List Nat))
    (itensors otensors : List (List Int)) (ir : List GInst) : Option (List GInst) :=
  if itensors.all (fun it => (type2vars.find? (fun p => p.1 == it)).isSome)
  then some (ir ++ [GInst.mk GInstKind.compute otensors])
  else none

end GraphGen

/-! Theorems.  Each claim theorem is immediately preceded by a doc comment
naming the claim. -/

theorem recordSkipped_eq_false (zerofilter : Bool) (o_id : Nat) (sym_list : List Nat)
    (r : List Int × List Int) (hlen : o_id < r.2.length)
    (hpos : zerofilter = true → ∀ v ∈ subsetVals r.1 sym_list, 0 < v) :
    SymblIntSolve.recordSkipped zerofilter o_id sym_list r = false := by
  simp only [SymblIntSolve.recordSkipped, Bool.or_eq_false_iff, Bool.and_eq_false_iff,
    decide_eq_false_iff_not, not_le]
  refine ⟨hlen, ?_⟩
  rcases Bool.eq_false_or_eq_true zerofilter with hzf | hzf
  · refine Or.inr ?_
    simp only [List.any_eq_false]
    intro v hv
    simp only [decide_eq_true_eq, not_le]
    exact hpos hzf v hv
  · exact Or.inl hzf

/-- Claim C1 (amended): every `(tree, sym_set)` pair admitted by the
output-shape synthesiser predicts the exact observed `o_k` on every success
record that is actually checked, i.e. every record that has a `k`-th output
and, when the zero-filter is enabled, whose chosen input values are all
positive.  (The claim as stated — exactness on *every* success record — fails
when the zero-filter skips a record; see the counterexample.) -/
theorem admitted_output_rule_exact
    (zerofilter : Bool) (record_list : List (List Int × List Int))
    (tree : ArithExpTree) (sym_list : List Nat) (o_id : Nat)
    (h : SymblIntSolve.validTreeFor zerofilter record_list tree sym_list o_id = true) :
    ∀ r ∈ record_list, o_id < r.2.length →
      (zerofilter = true → ∀ v ∈ subsetVals r.1 sym_list, 0 < v) →
      tree.evaluate (subsetVals r.1 sym_list) = r.2.getD o_id 0 := by
  intro r hr hlen hpos
  simp only [SymblIntSolve.validTreeFor, Bool.and_eq_true, List.all_eq_true] at h
  have hrec := h.1 r hr
  rw [recordSkipped_eq_false zerofilter o_id sym_list r hlen hpos] at hrec
  simp only [Bool.false_or, SymblIntSolve.recordMatches, decide_eq_true_eq] at hrec
  exact hrec

/-- Witness for `admitted_output_rule_exact` at a concrete admitted rule. -/
theorem admitted_output_rule_exact_witness :
    (ArithExpTree.arg 0).evaluate (subsetVals [2] [0]) = ([2] : List Int).getD 0 0 :=
  admitted_output_rule_exact false [([2], [2])] (ArithExpTree.arg 0) [0] 0 (by decide)
    ([2], [2]) (by decide) (by decide) (fun hzf => absurd hzf (by decide))

/-- Claim C1, counterexample to the statement as written: with the
zero-filter enabled, the rule `o0 = s0` over subset `{0}` is admitted on the
DB `{([0], [5]), ([1], [1])}` (the first record is skipped because its chosen
value is `≤ 0`), yet on that first success record the tree evaluates to `0`
while the observed `o0` is `5`. -/
theorem admitted_output_rule_cex :
    SymblIntSolve.validTreeFor true [([0], [5]), ([1], [1])] (ArithExpTree.arg 0) [0] 0 = true
    ∧ (([0], [5]) : List Int × List Int) ∈ [([0], [5]), ([1], [1])]
    ∧ 0 < ([5] : List Int).length
    ∧ ¬ (ArithExpTree.arg 0).evaluate (subsetVals [0] [0]) = ([5] : List Int).getD 0 0 := by
  decide

/-- Claim C6: after `OpDatabase.analyze_symbol`, a pair `(i, j)` of
input-symbol indices with `i < j` is in `aliases` if and only if positions
`i` and `j` carry equal values in every success record. -/
theorem alias_pairs_characterization
    (record_list : List (List Int × List Int)) (i j : Nat)
    (hij : i < j) (hj : j < (record_list.headD ([], [])).1.length) :
    (i, j) ∈ ApiParsing.analyzeAliases record_list ↔
      ∀ r ∈ record_list, r.1.getD i 0 = r.1.getD j 0 := by
  unfold ApiParsing.analyzeAliases
  simp only [List.mem_flatMap, List.mem_filterMap, List.mem_filter, List.mem_range,
    decide_eq_true_eq]
  constructor
  · rintro ⟨a, ha, b, ⟨hb, hab⟩, hcond⟩
    by_cases hc : record_list.all (fun r => decide (r.1.getD a 0 = r.1.getD b 0)) = true
    · rw [if_pos hc] at hcond
      injection hcond with hpair
      injection hpair with hai hbj
      subst hai; subst hbj
      intro r hr
      simpa using List.all_eq_true.mp hc r hr
    · rw [if_neg hc] at hcond
      exact absurd hcond (by simp)
  · intro hall
    have hc : record_list.all (fun r => decide (r.1.getD i 0 = r.1.getD j 0)) = true :=
      List.all_eq_true.mpr fun r hr => by simpa using hall r hr
    exact ⟨i, lt_trans hij hj, j, ⟨hj, hij⟩, by rw [if_pos hc]⟩

/-- Witness for `alias_pairs_characterization` on a one-record DB. -/
theorem alias_pairs_characterization_witness :
    ((0, 1) ∈ ApiParsing.analyzeAliases [([5, 5], [1])] ↔
      ∀ r ∈ [(([5, 5] : List Int), ([1] : List Int))], r.1.getD 0 0 = r.1.getD 1 0) :=
  alias_pairs_characterization [([5, 5], [1])] 0 1 (by decide) (by decide)

open StrictInputSolve in
theorem remapTree_evalWith (sym_list : List Nat) (inputs : List Int) :
    ∀ tree : ArithExpTree, tree.argsBelow sym_list.length = true →
      (remapTree sym_list tree).evalWith (sigmaOf inputs)
        = tree.evaluate (subsetVals inputs sym_list) := by
  intro tree
  induction tree with
  | lit n => intro _; rfl
  | arg k =>
    intro h
    simp only [ArithExpTree.argsBelow, decide_eq_true_eq] at h
    show inputs.getD (sym_list.getD k 0) 0 = (sym_list.map fun a => inputs.getD a 0).getD k 0
    have hmap : k < (sym_list.map fun a => inputs.getD a 0).length := by simpa using h
    rw [List.getD_eq_getElem _ _ hmap, List.getElem_map, List.getD_eq_getElem _ _ h]
  | node op l r ihl ihr =>
    intro h
    simp only [ArithExpTree.argsBelow, Bool.and_eq_true] at h
    show ArithOp.apply op _ _ = ArithOp.apply op _ _
    rw [ihl h.1, ihr h.2]

open StrictInputSolve in
theorem pruneLoop_subset (eqv : List InRule → List InRule → Bool) :
    ∀ (fuel : Nat) (ruleset : List InRule) (r : InRule),
      r ∈ pruneLoop eqv fuel ruleset → r ∈ ruleset := by
  intro fuel
  induction fuel with
  | zero => intro rs r h; simpa [pruneLoop] using h
  | succ n ih =>
    intro rs r h
    simp only [pruneLoop] at h
    cases hfp : findPrunable eqv rs with
    | none => rw [hfp] at h; exact h
    | some i => rw [hfp] at h; exact List.eraseIdx_subset rs i (ih _ r h)

open StrictInputSolve in
theorem mem_addRule (eqv : List InRule → List InRule → Bool)
    (ruleset : List InRule) (rule r : InRule) (h : r ∈ addRule eqv ruleset rule) :
    r ∈ ruleset ∨ r = rule := by
  unfold addRule at h
  by_cases h50 : 50 < ruleset.length
  · rw [if_pos h50] at h; exact Or.inl h
  · rw [if_neg h50] at h
    rcases List.mem_append.mp (pruneLoop_subset eqv _ _ r h) with h1 | h1
    · exact Or.inl h1
    · exact Or.inr (List.mem_singleton.mp h1)

open StrictInputSolve in
theorem inspect_all_records_sound (valid_list invalid_list : List (List Int))
    (sym_list : List Nat) (tree : ArithExpTree) (sign : CmpSign)
    (hargs : tree.argsBelow sym_list.length = true)
    (h : inspect_all_records valid_list invalid_list sym_list tree sign = true) :
    soundRule valid_list invalid_list (remapTree sym_list tree, sign) := by
  unfold inspect_all_records at h
  by_cases hall : valid_list.all
      (fun inputs => sign.holds (tree.evaluate (subsetVals inputs sym_list))) = true
  · rw [if_pos hall] at h
    constructor
    · intro inputs hin
      show sign.holds ((remapTree sym_list tree).evalWith (sigmaOf inputs)) = true
      rw [remapTree_evalWith sym_list inputs tree hargs]
      exact List.all_eq_true.mp hall inputs hin
    · intro hsign
      rw [if_neg hsign] at h
      obtain ⟨inputs, hin, hviol⟩ := List.any_eq_true.mp h
      refine ⟨inputs, hin, ?_⟩
      show sign.holds ((remapTree sym_list tree).evalWith (sigmaOf inputs)) = false
      rw [remapTree_evalWith sym_list inputs tree hargs]
      simpa using hviol
  · rw [if_neg hall] at h
    exact absurd h (by simp)

open StrictInputSolve in
theorem const_rule_sound (valid_list invalid_list : List (List Int)) (i : Nat)
    (hconst : valid_list.all
      (fun inputs => decide (inputs.getD i 0 = (valid_list.headD []).getD i 0)) = true) :
    soundRule valid_list invalid_list
      (SymExpr.node .sub (.sym i) (.lit ((valid_list.headD []).getD i 0)), CmpSign.eq) := by
  constructor
  · intro inputs hin
    have hv := List.all_eq_true.mp hconst inputs hin
    simp only [decide_eq_true_eq] at hv
    simp only [ruleHolds, CmpSign.holds, SymExpr.evalWith, sigmaOf, ArithOp.apply,
      decide_eq_true_eq]
    omega
  · intro hsign
    exact absurd rfl hsign

open StrictInputSolve in
theorem constRuleAdds_sound (eqv : List InRule → List InRule → Bool)
    (valid_list invalid_list : List (List Int)) (input_len : Nat) :
    ∀ rs0 : List InRule, (∀ r ∈ rs0, soundRule valid_list invalid_list r) →
      ∀ r ∈ constRuleAdds eqv valid_list input_len rs0, soundRule valid_list invalid_list r := by
  unfold constRuleAdds
  generalize List.range input_len = idxs
  induction idxs with
  | nil => intro rs0 h0; simpa using h0
  | cons a as ih =>
    intro rs0 h0
    simp only [List.foldl_cons]
    refine ih _ ?_
    intro r hr
    by_cases hc : valid_list.all
        (fun inputs => decide (inputs.getD a 0 = (valid_list.headD []).getD a 0)) = true
    · rw [if_pos hc] at hr
      rcases mem_addRule _ _ _ _ hr with h1 | h1
      · exact h0 r h1
      · subst h1; exact const_rule_sound valid_list invalid_list a hc
    · rw [if_neg hc] at hr
      exact h0 r hr

open StrictInputSolve in
theorem candidateAdds_sound (eqv : List InRule → List InRule → Bool)
    (valid_list invalid_list : List (List Int)) :
    ∀ cands : List (ArithExpTree × List Nat × CmpSign),
      (∀ c ∈ cands, c.1.argsBelow c.2.1.length = true) →
      ∀ rs0 : List InRule, (∀ r ∈ rs0, soundRule valid_list invalid_list r) →
      ∀ r ∈ candidateAdds eqv valid_list invalid_list cands rs0,
        soundRule valid_list invalid_list r := by
  intro cands
  induction cands with
  | nil => intro _ rs0 h0; simpa [candidateAdds] using h0
  | cons c cs ih =>
    intro hcands rs0 h0
    simp only [candidateAdds, List.foldl_cons]
    refine ih (fun x hx => hcands x (List.mem_cons_of_mem c hx)) _ ?_
    intro r hr
    by_cases hc : inspect_all_records valid_list invalid_list c.2.1 c.1 c.2.2 = true
    · rw [if_pos hc] at hr
      rcases mem_addRule _ _ _ _ hr with h1 | h1
      · exact h0 r h1
      · subst h1
        exact inspect_all_records_sound valid_list invalid_list c.2.1 c.1 c.2.2
          (hcands c (List.mem_cons_self c cs)) hc
    · rw [if_neg hc] at hr
      exact h0 r hr

/-- Claim C2: every input-constraint rule `(e, rel)` admitted by the
constraint-rule synthesiser satisfies `e(inputs) rel 0` on every success
record, and if `rel` is `>` or `>=` then at least one failing record violates
`e(inputs) rel 0`.  The equivalence oracle, the candidate enumeration order
and its budget-cut prefix are universally quantified. -/
theorem strict_rule_admission_sound (eqv : StrictInputSolve.eqvOracle)
    (valid_list invalid_list : List (List Int))
    (cands : List (ArithExpTree × List Nat × StrictInputSolve.CmpSign))
    (hcands : ∀ c ∈ cands, c.1.argsBelow c.2.1.length = true)
    (rule : StrictInputSolve.InRule)
    (hr : rule ∈ StrictInputSolve.solveInstRules eqv valid_list invalid_list cands) :
    (∀ inputs ∈ valid_list,
      StrictInputSolve.ruleHolds rule (StrictInputSolve.sigmaOf inputs) = true)
    ∧ (rule.2 ≠ StrictInputSolve.CmpSign.eq →
      ∃ inputs ∈ invalid_list,
        StrictInputSolve.ruleHolds rule (StrictInputSolve.sigmaOf inputs) = false) :=
  candidateAdds_sound eqv valid_list invalid_list cands hcands _
    (constRuleAdds_sound eqv valid_list invalid_list _ [] (by simp)) rule hr

/-- Witness for `strict_rule_admission_sound`: the rule `s0 > 0` admitted
from the success record `(1)` and the fail record `(0)`. -/
theorem strict_rule_admission_sound_witness :
    (∀ inputs ∈ ([[1]] : List (List Int)),
      StrictInputSolve.ruleHolds (StrictInputSolve.SymExpr.sym 0, StrictInputSolve.CmpSign.gt)
        (StrictInputSolve.sigmaOf inputs) = true)
    ∧ (((StrictInputSolve.SymExpr.sym 0, StrictInputSolve.CmpSign.gt) :
          StrictInputSolve.InRule).2 ≠ StrictInputSolve.CmpSign.eq →
      ∃ inputs ∈ ([[0]] : List (List Int)),
        StrictInputSolve.ruleHolds (StrictInputSolve.SymExpr.sym 0, StrictInputSolve.CmpSign.gt)
          (StrictInputSolve.sigmaOf inputs) = false) :=
  strict_rule_admission_sound StrictInputSolve.eqvNever [[1]] [[0]]
    [(ArithExpTree.arg 0, [0], StrictInputSolve.CmpSign.gt)] (by decide)
    (StrictInputSolve.SymExpr.sym 0, StrictInputSolve.CmpSign.gt) (by decide)

open StrictInputSolve in
theorem findPrunableAux_none_eqv (eqv : List InRule → List InRule → Bool)
    (ruleset : List InRule) :
    ∀ n, findPrunableAux eqv ruleset n = none →
      ∀ k, 1 ≤ k → k ≤ n → eqv ruleset (ruleset.eraseIdx k) = false := by
  intro n
  induction n with
  | zero =>
    intro _ k hk1 hk2
    exact absurd (Nat.le_trans hk1 hk2) (by decide)
  | succ n ih =>
    intro h k hk1 hk2
    unfold findPrunableAux at h
    by_cases hq : eqv ruleset (ruleset.eraseIdx (n + 1)) = true
    · rw [if_pos hq] at h
      exact absurd h (by simp)
    · rw [if_neg hq] at h
      rcases Nat.lt_or_ge k (n + 1) with hlt | hge
      · exact ih h k hk1 (by omega)
      · have hk : k = n + 1 := by omega
        subst hk
        exact Bool.eq_false_iff.mpr hq

open StrictInputSolve in
theorem findPrunableAux_some_bounds (eqv : List InRule → List InRule → Bool)
    (ruleset : List InRule) :
    ∀ n i, findPrunableAux eqv ruleset n = some i → 1 ≤ i ∧ i ≤ n := by
  intro n
  induction n with
  | zero => intro i h; exact absurd h (by simp [findPrunableAux])
  | succ n ih =>
    intro i h
    unfold findPrunableAux at h
    by_cases hq : eqv ruleset (ruleset.eraseIdx (n + 1)) = true
    · rw [if_pos hq] at h
      injection h with h
      omega
    · rw [if_neg hq] at h
      have := ih i h
      omega

open StrictInputSolve in
theorem findPrunable_some_lt (eqv : List InRule → List InRule → Bool)
    (ruleset : List InRule) (i : Nat) (h : findPrunable eqv ruleset = some i) :
    1 ≤ i ∧ i < ruleset.length := by
  have hb := findPrunableAux_some_bounds eqv ruleset _ i h
  rcases Nat.eq_zero_or_pos ruleset.length with hL | hL
  · rw [findPrunable, hL] at h
    exact absurd h (by simp [findPrunableAux])
  · omega

open StrictInputSolve in
theorem pruneLoop_fixpoint (eqv : List InRule → List InRule → Bool) :
    ∀ (fuel : Nat) (ruleset : List InRule), ruleset.length ≤ fuel →
      findPrunable eqv (pruneLoop eqv fuel ruleset) = none := by
  intro fuel
  induction fuel with
  | zero =>
    intro rs h
    have hnil : rs = [] := List.length_eq_zero.mp (Nat.le_zero.mp h)
    subst hnil
    rfl
  | succ n ih =>
    intro rs h
    cases hfp : findPrunable eqv rs with
    | none =>
      simp only [pruneLoop, hfp]
    | some i =>
      have hb := findPrunable_some_lt eqv rs i hfp
      have hlen : (rs.eraseIdx i).length = rs.length - 1 := by
        rw [List.length_eraseIdx]
        simp [hb.2]
      simp only [pruneLoop, hfp]
      exact ih _ (by omega)

/-- Claim C3 (amended): after each call of `RuleDatabase.Add`, assuming the
equivalence oracle reports every true equivalence, removing any rule *other
than the rule at index 0* yields a strictly weaker conjunction.  (The prune
scan `range(len-1, 0, -1)` never visits index 0, so the first rule can remain
even when it is implied by the others; see the counterexample.) -/
theorem input_rule_minimality_after_add (eqv : StrictInputSolve.eqvOracle)
    (hcomp : ∀ E F, StrictInputSolve.ConjEquiv E F → eqv E F = true)
    (ruleset : List StrictInputSolve.InRule) (rule : StrictInputSolve.InRule)
    (hlen : ruleset.length ≤ 50) :
    ∀ i, 1 ≤ i → i < (StrictInputSolve.addRule eqv ruleset rule).length →
      ¬ StrictInputSolve.ConjEquiv (StrictInputSolve.addRule eqv ruleset rule)
        ((StrictInputSolve.addRule eqv ruleset rule).eraseIdx i) := by
  intro i hi1 hi2 hEquiv
  have hres : StrictInputSolve.addRule eqv ruleset rule
      = StrictInputSolve.pruneLoop eqv (ruleset.length + 1) (ruleset ++ [rule]) := by
    unfold StrictInputSolve.addRule
    rw [if_neg (by omega)]
  rw [hres] at hi2 hEquiv
  have hfix := pruneLoop_fixpoint eqv (ruleset.length + 1) (ruleset ++ [rule]) (by simp)
  rw [StrictInputSolve.findPrunable] at hfix
  have hfalse := findPrunableAux_none_eqv eqv _ _ hfix i hi1 (by omega)
  have htrue := hcomp _ _ hEquiv
  rw [hfalse] at htrue
  exact Bool.false_ne_true htrue

open StrictInputSolve in
theorem eqvW_complete : ∀ E F, ConjEquiv E F → eqvW E F = true := by
  intro E F hEF
  by_cases hE : E = [rGe0, rEq0]
  · by_cases hF : F = [rGe0]
    · subst hE; subst hF
      exact absurd (hEF (fun _ => 1)) (by decide)
    · simp [eqvW, beq_iff_eq, hF]
  · simp [eqvW, beq_iff_eq, hE]

/-- Witness for `input_rule_minimality_after_add`: adding `s0 = 0` to
`{s0 >= 0}` under a complete oracle leaves a two-rule set in which removing
the rule at index 1 strictly weakens the conjunction. -/
theorem input_rule_minimality_witness :
    ¬ StrictInputSolve.ConjEquiv
      (StrictInputSolve.addRule StrictInputSolve.eqvW
        [StrictInputSolve.rGe0] StrictInputSolve.rEq0)
      ((StrictInputSolve.addRule StrictInputSolve.eqvW
        [StrictInputSolve.rGe0] StrictInputSolve.rEq0).eraseIdx 1) :=
  input_rule_minimality_after_add StrictInputSolve.eqvW eqvW_complete
    [StrictInputSolve.rGe0] StrictInputSolve.rEq0 (by decide) 1 (by decide) (by decide)

/-- Claim C3, counterexample to full minimality: admitting `s0 - 1 >= 0` and
then `s0 - 1 > 0` (the oracle correctly denies the one equivalence query the
prune loop makes, see the middle conjunct) leaves both rules in the set, yet
removing the rule at index 0 keeps the conjunction equivalent — the admitted
set is not minimal. -/
theorem input_rule_minimality_cex :
    StrictInputSolve.addRule StrictInputSolve.eqvNever
        (StrictInputSolve.addRule StrictInputSolve.eqvNever [] StrictInputSolve.rGe1)
        StrictInputSolve.rGt1
      = [StrictInputSolve.rGe1, StrictInputSolve.rGt1]
    ∧ ¬ StrictInputSolve.ConjEquiv [StrictInputSolve.rGe1, StrictInputSolve.rGt1]
        ([StrictInputSolve.rGe1, StrictInputSolve.rGt1].eraseIdx 1)
    ∧ StrictInputSolve.ConjEquiv [StrictInputSolve.rGe1, StrictInputSolve.rGt1]
        ([StrictInputSolve.rGe1, StrictInputSolve.rGt1].eraseIdx 0) := by
  refine ⟨by decide, ?_, ?_⟩
  · intro hEq
    exact absurd (hEq (fun _ => 1)) (by decide)
  · intro sigma
    show StrictInputSolve.satAll [StrictInputSolve.rGe1, StrictInputSolve.rGt1] sigma
      = StrictInputSolve.satAll [StrictInputSolve.rGt1] sigma
    simp only [StrictInputSolve.satAll, List.all_cons, List.all_nil, Bool.and_true]
    by_cases h : StrictInputSolve.ruleHolds StrictInputSolve.rGt1 sigma = true
    · rw [h, Bool.and_true]
      have hgt : (0 : Int) < sigma 0 - 1 := by
        simpa [StrictInputSolve.ruleHolds, StrictInputSolve.CmpSign.holds,
          StrictInputSolve.rGt1, StrictInputSolve.SymExpr.evalWith, ArithOp.apply] using h
      simp only [StrictInputSolve.ruleHolds, StrictInputSolve.CmpSign.holds,
        StrictInputSolve.rGe1, StrictInputSolve.SymExpr.evalWith, ArithOp.apply,
        decide_eq_true_eq]
      omega
    · rw [Bool.eq_false_iff.mpr h, Bool.and_false]

/-- Claim C4 (amended): the filtering of fail inputs to the all-non-negative
subset happens in the dialect-rule matcher (`nnsmith_rules.solve_inst`), not
in the constraint-rule synthesiser: the latter consumes every fail input
verbatim, negative values included. -/
theorem fail_filter_is_dialect_side (fail_list : List (List Int)) (inputs : List Int) :
    (inputs ∈ NNSmithRules.nonNegativeFails fail_list ↔
      inputs ∈ fail_list ∧ ∀ v ∈ inputs, 0 ≤ v)
    ∧ StrictInputSolve.invalidListOf fail_list = fail_list := by
  constructor
  · rw [NNSmithRules.nonNegativeFails, List.mem_filter]
    simp [List.all_eq_true]
  · simp [StrictInputSolve.invalidListOf]

/-- Witness for `fail_filter_is_dialect_side` on a fail list with a negative
record. -/
theorem fail_filter_is_dialect_side_witness :
    ((([-3] : List Int) ∈ NNSmithRules.nonNegativeFails [[-3], [2]] ↔
      ([-3] : List Int) ∈ [[-3], [2]] ∧ ∀ v ∈ ([-3] : List Int), 0 ≤ v)
    ∧ StrictInputSolve.invalidListOf [[-3], [2]] = [[-3], [2]]) :=
  fail_filter_is_dialect_side [[-3], [2]] [-3]

/-- Claim C4, counterexample: the constraint-rule synthesiser admits the
strict rule `s0 > 0` from success `(2)` and fail `(-3)` — the fail record
with a negative value is exactly the separating witness, and without it the
rule is rejected.  A negative fail record is therefore used when checking a
strict rule's separating power. -/
theorem negative_fail_used_cex :
    StrictInputSolve.inspect_all_records [[2]] [[-3]] [0]
        (ArithExpTree.arg 0) StrictInputSolve.CmpSign.gt = true
    ∧ StrictInputSolve.inspect_all_records [[2]] [] [0]
        (ArithExpTree.arg 0) StrictInputSolve.CmpSign.gt = false
    ∧ (StrictInputSolve.SymExpr.sym 0, StrictInputSolve.CmpSign.gt)
        ∈ StrictInputSolve.solveInstRules StrictInputSolve.eqvNever [[2]] [[-3]]
          [(ArithExpTree.arg 0, [0], StrictInputSolve.CmpSign.gt)]
    ∧ (StrictInputSolve.SymExpr.sym 0, StrictInputSolve.CmpSign.gt)
        ∉ StrictInputSolve.solveInstRules StrictInputSolve.eqvNever [[2]] []
          [(ArithExpTree.arg 0, [0], StrictInputSolve.CmpSign.gt)]
    ∧ ¬ (∀ v ∈ ([-3] : List Int), 0 ≤ v) := by
  decide

open NNSmithRules in
theorem matchDialectAux_mem (inst : OpInst) (success : List (List Int × List Int))
    (fail_list : List (List Int)) :
    ∀ (l : List DialectRuleClass) (base k : Nat),
      k ∈ matchDialectAux inst success fail_list base l ↔
        ∃ m, k = base + m
          ∧ (∃ cls, l.get? m = some cls ∧ classMatches cls inst success fail_list = true)
          ∧ ∀ j, j < m → ∀ cls, l.get? j = some cls →
              classMatches cls inst success fail_list = false := by
  intro l
  induction l with
  | nil =>
    intro base k
    simp [matchDialectAux]
  | cons cls rest ih =>
    intro base k
    by_cases hc : classMatches cls inst success fail_list = true
    · simp only [matchDialectAux, if_pos hc]
      constructor
      · intro hk
        have hk' : k = base := by simpa using hk
        exact ⟨0, by omega, ⟨cls, rfl, hc⟩, fun j hj => absurd hj (by omega)⟩
      · rintro ⟨m, hkm, ⟨cls2, hget, hmat⟩, hmin⟩
        cases m with
        | zero => simp [hkm]
        | succ m2 => exact absurd hc (by simp [hmin 0 (by omega) cls rfl])
    · simp only [matchDialectAux, if_neg hc]
      rw [ih (base + 1) k]
      constructor
      · rintro ⟨m, hkm, hex, hmin⟩
        refine ⟨m + 1, by omega, by simpa using hex, ?_⟩
        intro j hj cls2 hget
        cases j with
        | zero =>
          injection hget with h2
          subst h2
          exact Bool.eq_false_iff.mpr hc
        | succ j2 => exact hmin j2 (by omega) cls2 (by simpa using hget)
      · rintro ⟨m, hkm, ⟨cls2, hget, hmat⟩, hmin⟩
        cases m with
        | zero =>
          injection hget with h2
          subst h2
          exact absurd hmat hc
        | succ m2 =>
          refine ⟨m2, by omega, ⟨cls2, by simpa using hget, hmat⟩, ?_⟩
          intro j hj cls3 hget3
          exact hmin (j + 1) (by omega) cls3 (by simpa using hget3)

/-- Claim C5 (amended): the dialect-rule matcher outputs the index of the
*first* rule class (in registry order) that matches the operator instance —
a singleton, or the empty list when no class matches — where matching is the
embedded criterion `classMatches` (arities agree, every success record is
accepted by `type_transfer`/`requires`, the class-specific extra probe
passes, and every all-non-negative failing record is rejected).  The loop
`break`s after the first match, so later matching classes are not reported;
see the counterexample. -/
theorem dialect_matcher_first_match (registry : List NNSmithRules.DialectRuleClass)
    (inst : NNSmithRules.OpInst) (success : List (List Int × List Int))
    (fail_list : List (List Int)) (k : Nat) :
    k ∈ NNSmithRules.solveInstMatches registry inst success fail_list ↔
      (∃ cls, registry.get? k = some cls
        ∧ NNSmithRules.classMatches cls inst success fail_list = true)
      ∧ ∀ j, j < k → ∀ cls, registry.get? j = some cls →
          NNSmithRules.classMatches cls inst success fail_list = false := by
  rw [NNSmithRules.solveInstMatches,
    matchDialectAux_mem inst success fail_list registry 0 k]
  constructor
  · rintro ⟨m, hkm, hex, hmin⟩
    have hk : k = m := by omega
    subst hk
    exact ⟨hex, hmin⟩
  · rintro ⟨hex, hmin⟩
    exact ⟨k, by omega, hex, hmin⟩

/-- Witness for `dialect_matcher_first_match` on a one-class registry. -/
theorem dialect_matcher_first_match_witness :
    (0 ∈ NNSmithRules.solveInstMatches [NNSmithRules.idClass]
        NNSmithRules.unaryInst [([3], [3])] [] ↔
      (∃ cls, [NNSmithRules.idClass].get? 0 = some cls
        ∧ NNSmithRules.classMatches cls NNSmithRules.unaryInst [([3], [3])] [] = true)
      ∧ ∀ j, j < 0 → ∀ cls, [NNSmithRules.idClass].get? j = some cls →
          NNSmithRules.classMatches cls NNSmithRules.unaryInst [([3], [3])] [] = false) :=
  dialect_matcher_first_match [NNSmithRules.idClass] NNSmithRules.unaryInst [([3], [3])] [] 0

/-- Claim C5, counterexample to "every matching class": in a registry whose
classes at index 0 and index 1 both match, the matcher reports only `[0]` —
index 1 matches but is absent from the output. -/
theorem dialect_matcher_break_cex :
    NNSmithRules.classMatches NNSmithRules.idClass NNSmithRules.unaryInst [([3], [3])] [] = true
    ∧ NNSmithRules.solveInstMatches [NNSmithRules.idClass, NNSmithRules.idClass]
        NNSmithRules.unaryInst [([3], [3])] [] = [0]
    ∧ (1 : Nat) ∉ NNSmithRules.solveInstMatches [NNSmithRules.idClass, NNSmithRules.idClass]
        NNSmithRules.unaryInst [([3], [3])] [] := by
  decide

/-- Claim C7: the per-tensor size cap is enforced on the symbolic and
concolic insertion paths, but `DynoFuzzR.try_concrete_forward_insert_op`
appends a record-matched instruction with *no* size-cap constraint or check:
here a record whose output tensor has `2^17` elements is inserted
successfully, while the very same tensor fails `tensor_type_constraints`
(and would be rejected by the concolic path's output check). -/
theorem record_insert_skips_size_cap :
    GraphGen.tryConcreteForwardInsertOp [([4], [0])] [[4]] [[131072]]
        [GraphGen.GInst.mk GraphGen.GInstKind.ph [[4]]]
      = some [GraphGen.GInst.mk GraphGen.GInstKind.ph [[4]],
              GraphGen.GInst.mk GraphGen.GInstKind.compute [[131072]]]
    ∧ GraphGen.tensor_type_constraints_ok [131072] = false
    ∧ GraphGen.concolicOutputCheck [[131072]] = false := by
  decide

open GraphGen in
theorem abstractGenLoop_all_fail (max_node_size : Nat) :
    ∀ (attempts : List (List GInst)) (ir : List GInst),
      (∀ a ∈ attempts, a = []) → abstractGenLoop max_node_size ir attempts = ir := by
  intro attempts
  induction attempts with
  | nil => intro ir _; rfl
  | cons a rest ih =>
    intro ir hall
    have ha : a = [] := hall a (List.mem_cons_self a rest)
    simp only [abstractGenLoop]
    by_cases hc : numOp ir < max_node_size
    · rw [if_pos hc, ha, List.append_nil]
      exact ih ir (fun x hx => hall x (List.mem_cons_of_mem a hx))
    · rw [if_neg hc]

open GraphGen in
theorem numOp_append (ir1 ir2 : List GInst) :
    numOp (ir1 ++ ir2) = numOp ir1 + numOp ir2 := by
  simp [numOp, List.filter_append]

open GraphGen in
theorem abstractGenLoop_numOp_le_one :
    ∀ (attempts : List (List GInst)) (ir : List GInst),
      (∀ a ∈ attempts, numOp a ≤ 1) → numOp ir ≤ 1 →
      numOp (abstractGenLoop 1 ir attempts) ≤ 1 := by
  intro attempts
  induction attempts with
  | nil => intro ir _ h; exact h
  | cons a rest ih =>
    intro ir hall hir
    simp only [abstractGenLoop]
    by_cases hc : numOp ir < 1
    · rw [if_pos hc]
      refine ih _ (fun x hx => hall x (List.mem_cons_of_mem a hx)) ?_
      rw [numOp_append]
      have := hall a (List.mem_cons_self a rest)
      omega
    · rw [if_neg hc]
      exact hir

/-- Claim C9 (amended): `max_nodes` bounds only *compute* instructions
(`num_op` excludes placeholders), so with `max_nodes = 1` the generator still
enters the insertion loop and stops once one compute instruction has been
inserted: the result carries at most one compute instruction, and it is the
one-instruction IR holding the single input placeholder exactly when every
insertion attempt fails within the budget. -/
theorem max_nodes_one_generation (attempts : List (List GraphGen.GInst))
    (choices : List Bool) (init_shape : List Int) :
    ((∀ a ∈ attempts, a = []) →
      GraphGen.modelGenRun 1 attempts choices init_shape
        = [GraphGen.GInst.mk GraphGen.GInstKind.inputPh [init_shape]])
    ∧ ((∀ a ∈ attempts, GraphGen.numOp a ≤ 1) →
      GraphGen.numOp (GraphGen.abstractGenLoop 1
        [GraphGen.GInst.mk GraphGen.GInstKind.ph [init_shape]] attempts) ≤ 1) := by
  constructor
  · intro hall
    rw [GraphGen.modelGenRun, abstractGenLoop_all_fail 1 attempts _ hall]
    rfl
  · intro hall
    exact abstractGenLoop_numOp_le_one attempts _ hall (Nat.zero_le 1)

/-- Witness for `max_nodes_one_generation`: two failing attempts leave the
single input placeholder. -/
theorem max_nodes_one_generation_witness :
    GraphGen.modelGenRun 1 [[], []] [] [2]
      = [GraphGen.GInst.mk GraphGen.GInstKind.inputPh [[2]]]
    ∧ GraphGen.numOp (GraphGen.abstractGenLoop 1
        [GraphGen.GInst.mk GraphGen.GInstKind.ph [[2]]] [[], []]) ≤ 1 :=
  ⟨(max_nodes_one_generation [[], []] [] [2]).1 (by decide),
   (max_nodes_one_generation [[], []] [] [2]).2 (by decide)⟩

/-- Claim C9, counterexample to the statement as written: with
`max_nodes = 1`, a first successful insertion attempt yields a final IR with
the initial input placeholder *and* a compute instruction — two
instructions, not a one-instruction IR containing only a placeholder. -/
theorem max_nodes_one_cex :
    GraphGen.modelGenRun 1 [[GraphGen.GInst.mk GraphGen.GInstKind.compute [[2]]]] [] [4]
      = [GraphGen.GInst.mk GraphGen.GInstKind.inputPh [[4]],
         GraphGen.GInst.mk GraphGen.GInstKind.compute [[2]]]
    ∧ (GraphGen.modelGenRun 1
        [[GraphGen.GInst.mk GraphGen.GInstKind.compute [[2]]]] [] [4]).length ≠ 1 := by
  decide

/-- Claim C10: in the mutator's pairwise step, when the original values of
`s_i` and `s_j` are both `v`, the swap probe runs on the assignment already
perturbed by `s_j += 1`, so the oracle is called with `s_i = v + 1` and
`s_j = v`; when the original values differ, the swap probe exchanges the
original values. -/
theorem pair_probe_swap_after_increment
    (xs : List Int) (i j : Nat) (hij : i ≠ j) (hi : i < xs.length) (hj : j < xs.length) :
    (xs.getD i 0 = xs.getD j 0 →
      ApiParsing.pairProbeTrace xs i j =
        [xs.set j (xs.getD i 0 + 1), (xs.set i (xs.getD i 0 + 1)).set j (xs.getD i 0)])
    ∧ (xs.getD i 0 ≠ xs.getD j 0 →
      ApiParsing.pairProbeTrace xs i j =
        [(xs.set i (xs.getD j 0)).set j (xs.getD i 0)]) := by
  constructor
  · intro hv
    unfold ApiParsing.pairProbeTrace
    simp only [if_pos hv]
    have h1 : (xs.set j (xs.getD j 0 + 1)).getD j 0 = xs.getD j 0 + 1 := by
      rw [List.getD_eq_getElem _ _ (by simpa using hj)]
      simp
    have h2 : (xs.set j (xs.getD j 0 + 1)).getD i 0 = xs.getD i 0 := by
      rw [List.getD_eq_getElem _ _ (by simpa using hi),
        List.getElem_set_ne (Ne.symm hij), List.getD_eq_getElem _ _ hi]
    rw [h1, h2, List.set_comm _ _ _ (Ne.symm hij), List.set_set, hv]
    rfl
  · intro hv
    unfold ApiParsing.pairProbeTrace
    simp only [if_neg hv]
    simp

/-- Witness for `pair_probe_swap_after_increment`: equal values `5, 5` probe
`[5, 6]` then `[6, 5]`; distinct values `3, 7` probe only the swap `[7, 3]`. -/
theorem pair_probe_swap_witness :
    ApiParsing.pairProbeTrace [5, 5] 0 1 = [[5, 6], [6, 5]]
    ∧ ApiParsing.pairProbeTrace [3, 7] 0 1 = [[7, 3]] := by
  constructor
  · exact ((pair_probe_swap_after_increment [5, 5] 0 1 (by decide) (by decide)
      (by decide)).1 (by decide)).trans (by decide)
  · exact ((pair_probe_swap_after_increment [3, 7] 0 1 (by decide) (by decide)
      (by decide)).2 (by decide)).trans (by decide)

end Dynofuzz
